import Mathlib

/-!
Verification of the `to-chinese-json` Chinese-text extraction pipeline.

This file shallowly embeds the core routines of the repository
(`src/unnamed/part_001`): the text cleaner/segmenter `cleanChineseText`,
the two classifier variants `isValidChineseText` (pattern/ts-morph side,
50-char cap) and `astIsValidChineseText` (AST-class side, 20-char cap with
the Latin-majority filter), the scored deduplicator `deduplicateTexts`,
the pattern-based extractor (`enumValueMatches`, `isConsoleLogLine`,
`isEnumUsageLine`, `extractChineseFromLine`, `regexExtractChineseFromFile`),
the two tree-based extractors (the `ASTChineseExtractor` class visitor and
the ts-morph `extractChineseFromFile` visitor), and the mapping generator
(`generateMapping`, `translateText`, `generatePlaceholder`).

Strings are modelled as lists of Unicode scalar values (`List Char`);
JavaScript string lengths are therefore measured in code points, which
agrees with UTF-16 code-unit counts for every character that actually
appears in the modelled character classes (all BMP) and differs only for
astral-plane characters inside user payloads.
-/

namespace ToChineseJson

/-- Strings are modelled as lists of Unicode scalar values. -/
abbrev Str := List Char

/-! ## Character classes used by the source regexes -/

/-- ASCII apostrophe, U+0027. -/
def quoteChar : Char := Char.ofNat 39

/-- ASCII double quote, U+0022. -/
def dquoteChar : Char := Char.ofNat 34

/-- ASCII backtick, U+0060. -/
def backtickChar : Char := Char.ofNat 96

/-- ASCII left curly brace, U+007B. -/
def lbraceChar : Char := Char.ofNat 123

/-- ASCII right curly brace, U+007D. -/
def rbraceChar : Char := Char.ofNat 125

/-- The CJK range `[一-鿿]` used by every `containsChinese` test. -/
def isChineseChar (c : Char) : Bool := decide (0x4e00 ≤ c.toNat ∧ c.toNat ≤ 0x9fff)

/-- `containsChinese(text)`: `/[一-鿿]/.test(text)`. -/
def containsChinese (t : Str) : Bool := t.any isChineseChar

/-- The JavaScript `\s` class (also the set trimmed by `String.trim`). -/
def isJsWhitespace (c : Char) : Bool :=
  decide (c.toNat = 0x9 ∨ c.toNat = 0xa ∨ c.toNat = 0xb ∨ c.toNat = 0xc ∨ c.toNat = 0xd ∨
    c.toNat = 0x20 ∨ c.toNat = 0xa0 ∨ c.toNat = 0x1680 ∨
    (0x2000 ≤ c.toNat ∧ c.toNat ≤ 0x200a) ∨ c.toNat = 0x2028 ∨ c.toNat = 0x2029 ∨
    c.toNat = 0x202f ∨ c.toNat = 0x205f ∨ c.toNat = 0x3000 ∨ c.toNat = 0xfeff)

/-- ASCII Latin letters `[a-zA-Z]`. -/
def isLatinLetter (c : Char) : Bool :=
  decide ((0x41 ≤ c.toNat ∧ c.toNat ≤ 0x5a) ∨ (0x61 ≤ c.toNat ∧ c.toNat ≤ 0x7a))

/-- ASCII digits `[0-9]`. -/
def isDigitChar (c : Char) : Bool := decide (0x30 ≤ c.toNat ∧ c.toNat ≤ 0x39)

/-- The JavaScript `\w` class `[A-Za-z0-9_]`. -/
def isWordChar (c : Char) : Bool := isLatinLetter c || isDigitChar c || c = '_'

/-- Characters in the ASCII range `[\u0000-\u007F]`. -/
def isAsciiChar (c : Char) : Bool := decide (c.toNat ≤ 0x7f)

/-- ASCII lower-casing, as applied by `toLowerCase()` to the characters the
pipeline actually manipulates (the tool's payloads are CJK plus ASCII). -/
def asciiLower (c : Char) : Char :=
  if 0x41 ≤ c.toNat ∧ c.toNat ≤ 0x5a then Char.ofNat (c.toNat + 32) else c

/-- The ASCII punctuation class stripped by step 1 of `cleanChineseText`:
`[!@#$%^&*()_+\-=\[\]{}|;':",./<>?`~]` (part_001 lines 306 and 1479). -/
def asciiSymbolStrip : List Char :=
  "!@#$%^&*()_+-=[]".data ++
    [lbraceChar, rbraceChar, '|', ';', quoteChar, ':', dquoteChar,
     ',', '.', '/', '<', '>', '?', backtickChar, '~']

/-- The emoji ranges removed by step 1 of `cleanChineseText`:
`[\u{1F600}-\u{1F64F}]|[\u{1F300}-\u{1F5FF}]|[\u{1F680}-\u{1F6FF}]|
[\u{1F1E0}-\u{1F1FF}]|[\u{2600}-\u{26FF}]|[\u{2700}-\u{27BF}]`. -/
def inEmojiRange (c : Char) : Bool :=
  decide ((0x1f600 ≤ c.toNat ∧ c.toNat ≤ 0x1f64f) ∨ (0x1f300 ≤ c.toNat ∧ c.toNat ≤ 0x1f5ff) ∨
    (0x1f680 ≤ c.toNat ∧ c.toNat ≤ 0x1f6ff) ∨ (0x1f1e0 ≤ c.toNat ∧ c.toNat ≤ 0x1f1ff) ∨
    (0x2600 ≤ c.toNat ∧ c.toNat ≤ 0x26ff) ∨ (0x2700 ≤ c.toNat ∧ c.toNat ≤ 0x27bf))

/-- The first explicit icon list of `cleanChineseText` (part_001 line 304);
the variation selectors U+FE0F contained in the literal are members of the
regex character class exactly as in the source. -/
def symbolList1 : List Char := "✅❌⏭️🔍📂📁📄🌐📡📝✨🚀⚠️💡🎯📊🛠️".data

/-- The second explicit icon list of `cleanChineseText` (part_001 line 305). -/
def symbolList2 : List Char := "►▶️⭐🎉🔧📈📉💻🖥️📱⌚".data

/-- The Chinese punctuation class of `cleanChineseText`
(part_001 lines 309-338, 1482-1520; the quote members are the ASCII
characters U+0022 and U+0027, as in the source bytes). -/
def chinesePunct : List Char :=
  "，。？！；：、·".data ++ [dquoteChar, dquoteChar, quoteChar, quoteChar] ++
    "（）【】《》〈〉「」『』…——－〔〕〖〗｛｝［］".data

/-- Membership in the Chinese punctuation class. -/
def isChinesePunct (c : Char) : Bool := chinesePunct.contains c

/-- A character replaced by a space in step 1 of `cleanChineseText`. -/
def isStrippedSymbol (c : Char) : Bool :=
  inEmojiRange c || symbolList1.contains c || symbolList2.contains c ||
    asciiSymbolStrip.contains c

/-- Step 1 of `cleanChineseText`: the four sequential `replace(..., ' ')`
calls, fused into one character map (every replaced class is replaced by a
space, and spaces are in none of the classes). -/
def replaceSymbolChar (c : Char) : Char := if isStrippedSymbol c then ' ' else c

/-! ## Generic scanning helpers (JavaScript semantics) -/

/-- `String.trim()`: drop JavaScript whitespace from both ends. -/
def jsTrim (t : Str) : Str :=
  ((t.dropWhile isJsWhitespace).reverse.dropWhile isJsWhitespace).reverse

/-- `replace(/^[cls]+/, '')` for a character predicate. -/
def dropLeadingSuch (p : Char → Bool) (t : Str) : Str := t.dropWhile p

/-- `replace(/[cls]+$/, '')` for a character predicate. -/
def dropTrailingSuch (p : Char → Bool) (t : Str) : Str :=
  (t.reverse.dropWhile p).reverse

/-- Strip leading then trailing Chinese punctuation (step 2 of
`cleanChineseText`). -/
def stripEdgeChinesePunct (t : Str) : Str :=
  dropTrailingSuch isChinesePunct (dropLeadingSuch isChinesePunct t)

/-- `split(/[cls]+/g)` semantics: a maximal run of separator characters is a
single separator; a leading/trailing run produces an empty piece.  The third
argument records whether the previous character belonged to a separator run. -/
def splitRunsGo (p : Char → Bool) : Str → Str → Bool → List Str
  | [], cur, _ => [cur.reverse]
  | c :: rest, cur, inRun =>
    if p c then
      if inRun then splitRunsGo p rest cur true
      else cur.reverse :: splitRunsGo p rest [] true
    else splitRunsGo p rest (c :: cur) false

/-- `split(/[cls]+/g)` on a character class predicate. -/
def splitRuns (p : Char → Bool) (t : Str) : List Str := splitRunsGo p t [] false

/-- `text.split(/[Chinese punctuation]+/g)` (step 3 of `cleanChineseText`). -/
def splitOnChinesePunct (t : Str) : List Str := splitRuns isChinesePunct t

/-- `l.take pat.length = pat`: the scanned text starts with the pattern. -/
def startsWithSeq (pat t : Str) : Bool := t.take pat.length = pat

/-- Substring containment (used for the regex alternations over literals). -/
def containsSeq (pat : Str) : Str → Bool
  | [] => pat.isEmpty
  | t@(_ :: rest) => startsWithSeq pat t || containsSeq pat rest

/-! ## Text Cleaner/Segmenter: `cleanChineseText`
(part_001 lines 298-342 and 1467-1524; the two occurrences are textually
identical, so a single definition embeds both). -/

/-- The per-segment cleanup map of step 4: remove `[a-zA-Z0-9\s]+`, remove
`[\u0000-\u007F]+`, strip Chinese punctuation from both ends, and trim. -/
def cleanSegment (seg : Str) : Str :=
  jsTrim (stripEdgeChinesePunct
    ((seg.filter (fun c => !(isLatinLetter c || isDigitChar c || isJsWhitespace c))).filter
      (fun c => !isAsciiChar c)))

/-- The final filter of `cleanChineseText` over cleaned segments. -/
def segmentKeep (s : Str) : Bool :=
  !s.isEmpty && decide (0 < s.length) && containsChinese s && decide (s.length ≤ 20) &&
    !(match s with | [] => false | c :: _ => isChinesePunct c) &&
    !(match s.getLast? with | none => false | some c => isChinesePunct c)

/-- `cleanChineseText(text)`: strip symbols, trim boundary Chinese
punctuation, split on interior Chinese punctuation, clean each segment, and
keep only valid Chinese-bearing segments of length at most 20. -/
def cleanChineseText (text : Str) : List Str :=
  if text = [] then []
  else
    let cleaned := stripEdgeChinesePunct (text.map replaceSymbolChar)
    if cleaned = [] || !containsChinese cleaned then []
    else
      ((((splitOnChinesePunct cleaned).map jsTrim).filter
          (fun s => !s.isEmpty && containsChinese s)).map cleanSegment).filter segmentKeep

/-! ## Text Classifier variants -/

/-- `/[{}[\]();]/`: code bracket characters. -/
def hasCodeBracket (t : Str) : Bool :=
  t.any (fun c => c = lbraceChar || c = rbraceChar || c = '[' || c = ']' ||
    c = '(' || c = ')' || c = ';')

/-- `/\\n|\\t/`: a literal backslash followed by `n` or `t`. -/
def hasEscapeSeq (t : Str) : Bool :=
  containsSeq ['\\', 'n'] t || containsSeq ['\\', 't'] t

/-- `/^\s*\/\//`: a line-comment marker after optional whitespace. -/
def startsWithComment (t : Str) : Bool :=
  startsWithSeq "//".data (t.dropWhile isJsWhitespace)

/-- `/interface|class|function|const|let|var|export|import/i`. -/
def hasCodeKeyword (t : Str) : Bool :=
  let low := t.map asciiLower
  ["interface", "class", "function", "const", "let", "var", "export", "import"].any
    (fun kw => containsSeq kw.data low)

/-- Whether the suffix starts with `\s*:\s*\w`, the tail of the
`/\w+\s*:\s*\w+/` pattern after its first word character. -/
def colonTail (t : Str) : Bool :=
  match (t.dropWhile isJsWhitespace) with
  | [] => false
  | c :: rest =>
    c = ':' && (match rest.dropWhile isJsWhitespace with
                | [] => false
                | d :: _ => isWordChar d)

/-- `/\w+\s*:\s*\w+/`: some word character followed (after optional
whitespace) by a colon, optional whitespace, and a word character. -/
def hasPropertyPattern : Str → Bool
  | [] => false
  | c :: rest => (isWordChar c && colonTail rest) || hasPropertyPattern rest

/-- `/^[\d\s.,，。]+$/`: nonempty and made only of digits, whitespace, and
the listed dot/comma characters. -/
def onlyDigitsAndDots (t : Str) : Bool :=
  !t.isEmpty && t.all (fun c => isDigitChar c || isJsWhitespace c ||
    c = '.' || c = ',' || c = '，' || c = '。')

/-- An executable approximation of the Unicode `\p{P}` category: ASCII
punctuation in category P together with the CJK punctuation used by the
pipeline.  CJK ideographs are not punctuation, which is the only fact the
classifiers depend on: the `/^[\s\p{P}]+$/u` test runs strictly after a
successful `containsChinese` test, so it is false on every reachable input
(see `punctOnlyFalseOfChinese`). -/
def isPunctCategory (c : Char) : Bool :=
  "!#%&*,-./:;?@_".data.contains c || c = quoteChar || c = dquoteChar ||
    c = '(' || c = ')' || c = '[' || c = ']' || c = lbraceChar || c = rbraceChar ||
    c = '\\' || chinesePunct.contains c || "“”‘’".data.contains c

/-- `/^[\s\p{P}]+$/u`: nonempty and made only of whitespace/punctuation. -/
def onlyWhitespaceAndPunct (t : Str) : Bool :=
  !t.isEmpty && t.all (fun c => isJsWhitespace c || isPunctCategory c)

/-- The standalone classifier `isValidChineseText` of the ts-morph and
pattern extractors (part_001 lines 786-828 and 1531-1573, textually
identical): requires a Chinese character, nonblank, length at most 50, no
code-shaped pattern, not digits/punctuation only.  It has no Latin-majority
filter. -/
def isValidChineseText (t : Str) : Bool :=
  if !containsChinese t then false
  else if (jsTrim t).isEmpty then false
  else if decide (50 < t.length) then false
  else if hasCodeBracket t || hasEscapeSeq t || startsWithComment t ||
          hasCodeKeyword t || hasPropertyPattern t then false
  else if onlyDigitsAndDots t then false
  else if onlyWhitespaceAndPunct t then false
  else true

/-- The `ASTChineseExtractor.isValidChineseText` classifier (part_001 lines
349-388): length cap 20 and, in addition, the Latin-majority filter that
rejects a text whose count of `[a-zA-Z]` letters exceeds its count of CJK
characters. -/
def astIsValidChineseText (t : Str) : Bool :=
  if t = [] || !containsChinese t then false
  else if (jsTrim t).isEmpty || decide (20 < t.length) then false
  else if hasCodeBracket t || hasEscapeSeq t || startsWithComment t ||
          hasCodeKeyword t || hasPropertyPattern t then false
  else if onlyDigitsAndDots t then false
  else if onlyWhitespaceAndPunct t then false
  else if decide (t.countP (fun c => isChineseChar c) <
                  t.countP (fun c => isLatinLetter c)) then false
  else true

/-! ## Deduplicator: `deduplicateTexts` and the quality score
(part_001 lines 726-779 and 1406-1459, textually identical). -/

/-- Collapse whitespace runs, tracking whether the previous character was
whitespace. -/
def collapseWsGo (sep : Char) : Str → Bool → Str
  | [], _ => []
  | c :: rest, inRun =>
    if isJsWhitespace c then
      if inRun then collapseWsGo sep rest true
      else sep :: collapseWsGo sep rest true
    else c :: collapseWsGo sep rest false

/-- Collapse every maximal run of JavaScript whitespace into the single
character `sep`: `replace(/\s+/g, sep)`. -/
def collapseWsRuns (sep : Char) (t : Str) : Str := collapseWsGo sep t false

/-- The punctuation removed by the deduplication key
(`/[。，；：“”‘’（）、《》]/g`, part_001 lines 735 and 1415; these quote
members are the curly quotation marks U+201C/U+201D/U+2018/U+2019). -/
def dedupStripPunct : List Char := "。，；：“”‘’（）、《》".data

/-- The normalization key of `deduplicateTexts`: trim, collapse whitespace
runs to one space, strip the common Chinese punctuation, lower-case. -/
def normalizeForDedup (t : Str) : Str :=
  ((collapseWsRuns ' ' (jsTrim t)).filter (fun c => !dedupStripPunct.contains c)).map
    asciiLower

/-- The quality score `文本质量评分` (part_001 lines 764-779):
`min(length, 20)`, plus 5 for a sentence-terminal ending, plus 2 for a
contained comma-class mark, minus 3 for a comma-class start, minus 1 for a
comma-class end. -/
def textQualityScore (t : Str) : Int :=
  (min t.length 20 : Int) +
    (if (match t.getLast? with | some c => c = '。' || c = '？' || c = '！' | none => false)
      then 5 else 0) +
    (if t.any (fun c => c = '，' || c = '、') then 2 else 0) -
    (if (match t with | c :: _ => c = '，' || c = '、' | [] => false) then 3 else 0) -
    (if (match t.getLast? with | some c => c = '，' || c = '、' | none => false)
      then 1 else 0)

/-- The replacement condition of `deduplicateTexts`: the new text is longer,
or scores strictly higher, than the stored one. -/
def dedupReplaces (newText stored : Str) : Bool :=
  decide (stored.length < newText.length) ||
    decide (textQualityScore stored < textQualityScore newText)

/-- The mutable state of `deduplicateTexts`: the `seen` map (association
list from normalized key to stored text, in insertion order, as a
JavaScript `Map`) and the `result` array. -/
structure DedupState where
  seen : List (Str × Str)
  result : List Str
deriving Repr

/-- `Map.get` on the association list. -/
def mapGet (m : List (Str × Str)) (k : Str) : Option Str :=
  (m.find? (fun e => e.1 = k)).map (fun e => e.2)

/-- `Map.set` on an existing or new key (updates in place, appends if new),
matching JavaScript `Map.set` semantics. -/
def mapSet : List (Str × Str) → Str → Str → List (Str × Str)
  | [], k, v => [(k, v)]
  | e :: rest, k, v => if e.1 = k then (k, v) :: rest else e :: mapSet rest k v

/-- One iteration of the `deduplicateTexts` loop body. -/
def dedupStep (st : DedupState) (text : Str) : DedupState :=
  let normalized := normalizeForDedup text
  match mapGet st.seen normalized with
  | none => ⟨mapSet st.seen normalized text, st.result ++ [text]⟩
  | some existingText =>
    if dedupReplaces text existingText then
      match st.result.findIdx? (fun r => r = existingText) with
      | some index => ⟨mapSet st.seen normalized text, st.result.set index text⟩
      | none => st
    else st

/-- `deduplicateTexts(texts)` (part_001 lines 726-757): first-seen order
with in-place scored replacement of duplicates. -/
def deduplicateTexts (texts : List Str) : List Str :=
  (texts.foldl dedupStep ⟨[], []⟩).result

/-- The deduplication policy as the specification states it: walk the
output sequence; the first phrase whose normalized key matches is replaced
in place when and only when the new phrase is longer or scores higher;
otherwise, a phrase with a fresh key is appended. -/
def specInsert : List Str → Str → List Str
  | [], t => [t]
  | r :: rs, t =>
    if normalizeForDedup r = normalizeForDedup t then
      if dedupReplaces t r then t :: rs else r :: rs
    else r :: specInsert rs t

/-- The specification-level deduplicator built from `specInsert`. -/
def dedupSpec (texts : List Str) : List Str := texts.foldl specInsert []

/-! ## Mapping Generator: `generateMapping`, `translateText`,
`getBuiltinTranslation`, `translateWithAPI`, `generatePlaceholder`
(part_001 lines 899-1129). -/

/-- The built-in dictionary of `getBuiltinTranslation`
(part_001 lines 990-1102). -/
def builtinDictionary : List (Str × Str) :=
  [("总次数".data, "Total Count".data), ("总和".data, "Sum".data),
   ("平均值".data, "Average".data), ("最大值".data, "Maximum".data),
   ("最小值".data, "Minimum".data),
   ("订单数量".data, "Order Count".data), ("订单总商品数量".data, "Total Product Count".data),
   ("订单实付金额".data, "Order Paid Amount".data),
   ("订单总商品价格".data, "Total Product Price".data),
   ("订单商品数量".data, "Order Product Count".data), ("提交订单".data, "Submit Order".data),
   ("订单详情".data, "Order Details".data),
   ("等于".data, "Equal".data), ("不等于".data, "Not Equal".data),
   ("包含".data, "Contains".data), ("不包含".data, "Not Contains".data),
   ("有值".data, "Has Value".data), ("没值".data, "No Value".data),
   ("小于".data, "Less Than".data), ("大于".data, "Greater Than".data),
   ("小于等于".data, "Less Than or Equal".data),
   ("大于等于".data, "Greater Than or Equal".data), ("区间".data, "Range".data),
   ("为真".data, "True".data), ("为假".data, "False".data),
   ("优惠金额".data, "Discount Amount".data), ("商品价格".data, "Product Price".data),
   ("商品数量".data, "Product Count".data), ("实付金额".data, "Paid Amount".data),
   ("性别".data, "Gender".data), ("男性".data, "Male".data), ("女性".data, "Female".data),
   ("有赞".data, "Youzan".data), ("淘宝".data, "Taobao".data),
   ("注册渠道".data, "Registration Channel".data), ("好友类别".data, "Friend Category".data),
   ("用户行为事件".data, "User Behavior Event".data),
   ("做过".data, "Done".data), ("未做过".data, "Not Done".data),
   ("已做过".data, "Already Done".data),
   ("上传失败".data, "Upload Failed".data), ("删除".data, "Delete".data),
   ("编辑".data, "Edit".data), ("保存".data, "Save".data), ("取消".data, "Cancel".data),
   ("确认".data, "Confirm".data), ("提交".data, "Submit".data), ("重置".data, "Reset".data),
   ("搜索".data, "Search".data), ("查询".data, "Query".data), ("添加".data, "Add".data),
   ("新增".data, "Add".data), ("修改".data, "Modify".data), ("更新".data, "Update".data),
   ("刷新".data, "Refresh".data), ("加载".data, "Load".data), ("导入".data, "Import".data),
   ("导出".data, "Export".data), ("下载".data, "Download".data), ("上传".data, "Upload".data),
   ("复制".data, "Copy".data), ("粘贴".data, "Paste".data), ("剪切".data, "Cut".data),
   ("全选".data, "Select All".data), ("清空".data, "Clear".data), ("返回".data, "Back".data),
   ("下一步".data, "Next".data), ("上一步".data, "Previous".data),
   ("完成".data, "Complete".data), ("开始".data, "Start".data), ("结束".data, "End".data),
   ("暂停".data, "Pause".data), ("继续".data, "Continue".data), ("停止".data, "Stop".data),
   ("重新开始".data, "Restart".data), ("重试".data, "Retry".data), ("跳过".data, "Skip".data),
   ("忽略".data, "Ignore".data), ("关闭".data, "Close".data), ("打开".data, "Open".data),
   ("展开".data, "Expand".data), ("收起".data, "Collapse".data), ("显示".data, "Show".data),
   ("隐藏".data, "Hide".data), ("启用".data, "Enable".data), ("禁用".data, "Disable".data),
   ("激活".data, "Activate".data), ("停用".data, "Deactivate".data)]

/-- `getBuiltinTranslation(chineseText)`: dictionary lookup or null. -/
def getBuiltinTranslation (t : Str) : Option Str :=
  (builtinDictionary.find? (fun e => e.1 = t)).map (fun e => e.2)

/-- `translateWithAPI(chineseText)` (part_001 lines 1109-1114): the stub
always resolves to null. -/
def translateWithAPI (_ : Str) : Option Str := none

/-- `generatePlaceholder(chineseText)`: CJK characters become `X`,
whitespace runs become `_`, the result is lower-cased and prefixed. -/
def generatePlaceholder (t : Str) : Str :=
  "translate_".data ++
    (collapseWsRuns '_' (t.map (fun c => if isChineseChar c then 'X' else c))).map asciiLower

/-- `translateText(chineseText)`: built-in dictionary, then the online stub
(which never succeeds), then the deterministic placeholder. -/
def translateText (t : Str) : Str :=
  match getBuiltinTranslation t with
  | some translation => translation
  | none =>
    match translateWithAPI t with
    | some onlineTranslation => onlineTranslation
    | none => generatePlaceholder t

/-- The outcome of the external `translationManager.batchTranslate` call,
per the collaborator interface: either the whole batch call throws
(`Except.error`), or it yields a per-phrase partial map in which a missing
or empty entry is a per-phrase failure (JavaScript falsiness of
`apiTranslations[chineseText]`). -/
abbrev BatchResult := Except Unit (Str → Option Str)

/-- Whether an optional translation is truthy in JavaScript. -/
def truthy : Option Str → Bool
  | none => false
  | some s => !s.isEmpty

/-- `generateMapping(chineseTexts, translatorService, shouldTranslate)`
(part_001 lines 899-955), with the external batch call abstracted as a
`BatchResult`.  The mapping object is modelled as an ordered key-value
list; for the duplicate-free phrase lists the pipeline feeds it, this
agrees with a JavaScript object in insertion order. -/
def generateMapping (chineseTexts : List Str) (batch : BatchResult)
    (shouldTranslate : Bool) : List (Str × Str) :=
  if !shouldTranslate then
    chineseTexts.map (fun t => (t, "to do translate".data))
  else
    match batch with
    | .ok apiTranslations =>
      chineseTexts.map (fun t =>
        if truthy (apiTranslations t) then (t, (apiTranslations t).getD [])
        else (t, translateText t))
    | .error _ =>
      chineseTexts.map (fun t => (t, translateText t))

/-! ## Pattern-Based Extractor
(`extractChineseFromFile` of the regex strategy, part_001 lines 1230-1390). -/

/-- Clean a raw captured span and keep the valid Chinese segments: the loop
body `for (const segment of cleanChineseText(rawText.trim())) if (segment &&
isValidChineseText(segment)) push(segment)` shared by every capture site of
the pattern extractor. -/
def validSegments (raw : Str) : List Str :=
  (cleanChineseText (jsTrim raw)).filter (fun s => !s.isEmpty && isValidChineseText s)

/-- A character excluded from the quoted content of the enum-value regex:
the class `[^'"`)]`. -/
def enumContentStop (c : Char) : Bool :=
  c = quoteChar || c = dquoteChar || c = backtickChar || c = ')'

/-- Attempt to match the enum-value regex
`/\w+\s*=\s*(['"`])([^'"`)]*[一-鿿][^'"`)]*?)\1/` at the start of `l`;
returns the captured quoted content and the total matched length.  Because
the content class excludes every quote character, the content of a match is
exactly the maximal run of non-stop characters after the opening quote, and
the first stop character must be the matching quote. -/
def tryEnumMatch (l : Str) : Option (Str × Nat) :=
  let w := l.takeWhile isWordChar
  if w.isEmpty then none
  else
    let r1 := l.drop w.length
    let s1 := r1.takeWhile isJsWhitespace
    match r1.drop s1.length with
    | '=' :: r3 =>
      let s2 := r3.takeWhile isJsWhitespace
      match r3.drop s2.length with
      | q :: r5 =>
        if q = quoteChar || q = dquoteChar || q = backtickChar then
          let body := r5.takeWhile (fun c => !enumContentStop c)
          match r5.drop body.length with
          | c :: _ =>
            if c = q && containsChinese body then
              some (body, w.length + s1.length + 1 + s2.length + 1 + body.length + 1)
            else none
          | [] => none
        else none
      | [] => none
    | _ => none

/-- The global `exec` loop of the enum-value regex over the file content:
try a match at each position; after a match, resume after its end (every
match is at least one character long, mirroring the `lastIndex` advance).
The fuel equals the remaining length, so it never runs out before the text
does. -/
def enumScan : Nat → Str → List Str
  | 0, _ => []
  | _, [] => []
  | fuel + 1, l@(_ :: rest) =>
    match tryEnumMatch l with
    | some (body, len) => body :: enumScan fuel (l.drop (max len 1))
    | none => enumScan fuel rest

/-- All captures of `enumValueRegex` over the whole file content
(part_001 line 1237). -/
def enumValueMatches (content : Str) : List Str := enumScan content.length content

/-- `/\w+\.[一-鿿]/`: a word character, a dot, then a CJK character. -/
def hasWordDotChinese : Str → Bool
  | [] => false
  | _ :: [] => false
  | _ :: _ :: [] => false
  | a :: l@(b :: c :: _) => (isWordChar a && b = '.' && isChineseChar c) || hasWordDotChinese l

/-- `/key:\s*\w+\.[一-鿿]/`: the literal `key:` followed by optional
whitespace, a word-character run, a dot, and a CJK character. -/
def hasKeyedEnumUsage : Str → Bool
  | [] => false
  | t@(_ :: rest) =>
    (startsWithSeq "key:".data t &&
      (let r := (t.drop 4).dropWhile isJsWhitespace
       let run := r.takeWhile isWordChar
       !run.isEmpty &&
         (match r.drop run.length with
          | '.' :: d :: _ => isChineseChar d
          | _ => false))) ||
      hasKeyedEnumUsage rest

/-- `isEnumUsageLine(line)` (part_001 lines 1277-1285). -/
def isEnumUsageLine (line : Str) : Bool :=
  hasWordDotChinese line || hasKeyedEnumUsage line

/-- The console method names of the line-start patterns
(part_001 lines 1297-1308). -/
def consoleLinePatterns : List Str :=
  ["console.log".data, "console.warn".data, "console.error".data, "console.info".data,
   "console.debug".data, "console.trace".data, "console.table".data, "console.dir".data,
   "console.group".data, "console.groupEnd".data]

/-- `isConsoleLogLine(line)`: after trimming, the line starts with one of
the console invocation patterns `^console\.<m>\s*\(`. -/
def isConsoleLogLine (line : Str) : Bool :=
  let trimmedLine := jsTrim line
  consoleLinePatterns.any (fun pat =>
    startsWithSeq pat trimmedLine &&
      (match (trimmedLine.drop pat.length).dropWhile isJsWhitespace with
       | '(' :: _ => true
       | _ => false))

/-- The global `exec` loop of a quoted-span regex
`/q([^q]*[一-鿿][^q]*)q/g` for a quote character `q`: the second argument
is `none` outside a candidate span and `some buffer` after an unmatched
opening quote.  A span without a CJK character fails, and its closing quote
is then reconsidered as an opening quote, exactly as the regex engine
restarts from the next position. -/
def quotedScan (q : Char) : Str → Option Str → List Str
  | [], _ => []
  | c :: rest, none =>
    if c = q then quotedScan q rest (some []) else quotedScan q rest none
  | c :: rest, some buf =>
    if c = q then
      if containsChinese buf.reverse then buf.reverse :: quotedScan q rest none
      else quotedScan q rest (some [])
    else quotedScan q rest (some (c :: buf))

/-- All captures of a quoted-span regex over one line. -/
def extractQuoted (q : Char) (line : Str) : List Str := quotedScan q line none

/-- `split(/\$\{[^}]*\}/)` of a template-literal body.  `cur` holds the
current literal segment (reversed); `some pend` buffers a tentative
`${...}` whose closing brace has not yet been seen (also reversed).  A
closing brace completes the separator and ends the current segment; if the
input ends inside a tentative interpolation, no match exists there or
later, so the buffered text rejoins the final segment. -/
def interpSplitGo : Str → Str → Option Str → List Str
  | [], cur, none => [cur.reverse]
  | [], cur, some pend => [cur.reverse ++ pend.reverse]
  | c :: rest, cur, some pend =>
    if c = rbraceChar then cur.reverse :: interpSplitGo rest [] none
    else interpSplitGo rest cur (some (c :: pend))
  | '$' :: b :: r2, cur, none =>
    if b = lbraceChar then interpSplitGo r2 cur (some [lbraceChar, '$'])
    else interpSplitGo (b :: r2) ('$' :: cur) none
  | c :: rest, cur, none => interpSplitGo rest (c :: cur) none

/-- `templateContent.split(/\$\{[^}]*\}/)`. -/
def interpSpans (content : Str) : List Str := interpSplitGo content [] none

/-- Whether a template body contains an interpolation marker
(`templateContent.includes('${')`). -/
def hasInterp (content : Str) : Bool := containsSeq ['$', lbraceChar] content

/-- The phrases contributed by one literal-text span of a template body. -/
def segmentPhrases (segment : Str) : List Str := validSegments segment

/-- `extractChineseFromLine(line)` (part_001 lines 1318-1390): skip console
lines; run the single-quote, double-quote, and backtick regexes in order;
template bodies containing `${` are split on the interpolation markers and
each span is processed independently. -/
def extractChineseFromLine (line : Str) : List Str :=
  if isConsoleLogLine line then []
  else
    (extractQuoted quoteChar line).flatMap validSegments ++
      (extractQuoted dquoteChar line).flatMap validSegments ++
      (extractQuoted backtickChar line).flatMap (fun templateContent =>
        if !hasInterp templateContent then validSegments templateContent
        else (interpSpans templateContent).flatMap segmentPhrases)

/-- `split(sep)` with a plain one-character separator: every occurrence is
a boundary, so consecutive separators yield empty pieces. -/
def splitEvery (sep : Char) : Str → Str → List Str
  | [], cur => [cur.reverse]
  | c :: rest, cur =>
    if c = sep then cur.reverse :: splitEvery sep rest []
    else splitEvery sep rest (c :: cur)

/-- `content.split('\n')`. -/
def splitNewline (content : Str) : List Str := splitEvery '\n' content []

/-- `[...new Set(texts)]`: first occurrences in order, with the seen set
threaded as an accumulator. -/
def dedupFirstGo (seen : List Str) : List Str → List Str
  | [] => []
  | t :: rest =>
    if seen.contains t then dedupFirstGo seen rest
    else t :: dedupFirstGo (t :: seen) rest

/-- `[...new Set(texts)]`. -/
def dedupFirst (texts : List Str) : List Str := dedupFirstGo [] texts

/-- `extractChineseFromFile(filePath)` of the regex strategy
(part_001 lines 1230-1270): enum-value regex over the whole content, then a
line-by-line pass that skips enum-usage lines, and a final exact-match
deduplication. -/
def regexExtractChineseFromFile (content : Str) : List Str :=
  let fromEnum := (enumValueMatches content).flatMap validSegments
  let fromLines := (splitNewline content).flatMap (fun line =>
    if isEnumUsageLine line then [] else extractChineseFromLine line)
  dedupFirst (fromEnum ++ fromLines)

/-! ## Syntax-tree model

A mutual inductive pair (`Ast` with its child list `Asts`) embeds the node
kinds the extractors dispatch on.  `templateSpan` is the TypeScript
`TemplateSpan` node (interpolated expression plus trailing literal text);
`enumMember` carries its name node and an optional-initializer child list
(`Asts.nil` or a singleton); `jsxAttribute` carries the attribute name and
its optional-initializer child list.  Every node kind for which neither
extractor has a dedicated branch — `ComputedPropertyName`,
`BindingElement` and the binding patterns, `PropertyDeclaration` and other
class/interface members, variable statements, and so on — behaves
identically in both visitors (no extraction at the node itself, traversal
continues into the children, and the node is not a `PropertyAssignment` or
`EnumMember` parent for the key check); `otherNode` represents all of
them. -/

mutual
inductive Ast : Type where
  | stringLit (text : Str)
  | noSubTemplate (text : Str)
  | templateExpr (head : Str) (spans : Asts)
  | templateSpan (expr : Ast) (literal : Str)
  | jsxText (text : Str)
  | jsxAttribute (name : Str) (init : Asts)
  | ident (name : Str)
  | propAccess (obj : Ast) (prop : Str)
  | call (callee : Ast) (args : Asts)
  | exprStmt (expr : Ast)
  | enumDecl (members : Asts)
  | enumMember (name : Ast) (init : Asts)
  | propAssign (key : Ast) (value : Ast)
  | objectLit (props : Asts)
  | program (stmts : Asts)
  | otherNode (children : Asts)
deriving Repr

inductive Asts : Type where
  | nil
  | cons (hd : Ast) (tl : Asts)
deriving Repr
end

/-! ## Tree-Based Extractor, class variant (`ASTChineseExtractor`,
part_001 lines 9-405). -/

/-- The extraction options of `ASTChineseExtractor` with their constructor
defaults. -/
structure AstOptions where
  extractFromComments : Bool := false
  extractFromConsole : Bool := false
  extractFromJSX : Bool := true
  extractFromEnumValues : Bool := true
  extractFromEnumKeys : Bool := false
deriving Repr

/-- The constructor defaults. -/
def defaultAstOptions : AstOptions := {}

/-- `Set.add` on the insertion-ordered `chineseTexts` set. -/
def setAdd (st : List Str) (t : Str) : List Str :=
  if st.contains t then st else st ++ [t]

/-- The shared handler body: clean the text and add every segment that
passes `isValidChineseText` (class variant) to the set. -/
def addValidSegments (st : List Str) (t : Str) : List Str :=
  (cleanChineseText t).foldl
    (fun acc segment => if astIsValidChineseText segment then setAdd acc segment else acc) st

/-- `handleStringLiteral` / `handleTemplateLiteral` / `handleJSXText`
without the option guard: extract when the text contains Chinese. -/
def handleText (st : List Str) (t : Str) : List Str :=
  if containsChinese t then addValidSegments st t else st

/-- The literal parts handled by `handleTemplateExpression`: the head text,
then each span's trailing literal. -/
def handleTemplateLiterals (st : List Str) : Asts → List Str
  | .nil => st
  | .cons (.templateSpan _ lit) tl =>
    handleTemplateLiterals (if containsChinese lit then addValidSegments st lit else st) tl
  | .cons _ tl => handleTemplateLiterals st tl

/-- `handleEnumDeclaration` (part_001 lines 207-239): per member, the key
is extracted only when `extractFromEnumKeys` is set and the name is an
identifier; the value only when `extractFromEnumValues` is set and the
initializer is a string literal. -/
def handleEnumDeclaration (o : AstOptions) (st : List Str) : Asts → List Str
  | .nil => st
  | .cons (.enumMember nm init) tl =>
    let st :=
      match nm with
      | .ident keyName =>
        if o.extractFromEnumKeys && containsChinese keyName then addValidSegments st keyName
        else st
      | _ => st
    let st :=
      match init with
      | .cons (.stringLit value) _ =>
        if o.extractFromEnumValues && containsChinese value then addValidSegments st value
        else st
      | _ => st
    handleEnumDeclaration o st tl
  | .cons _ tl => handleEnumDeclaration o st tl

/-- `isConsoleCall(node)` (part_001 lines 271-282): a call whose callee is
a property access on the identifier `console` with one of the ten logged
method names. -/
def isConsoleCall (callee : Ast) : Bool :=
  match callee with
  | .propAccess (.ident objName) propName =>
    objName = "console".data &&
      ["log", "warn", "error", "info", "debug", "trace", "table", "dir", "group",
        "groupEnd"].any (fun m => propName = m.data)
  | _ => false

/-- `handleCallExpression(node)` (part_001 lines 245-253): when the call is
a console call and `extractFromConsole` is unset the handler returns early;
in either case it adds nothing itself — argument strings are reached by the
child recursion of `visitNode`. -/
def handleCallExpression (o : AstOptions) (st : List Str) (callee : Ast) : List Str :=
  if !o.extractFromConsole && isConsoleCall callee then st else st

mutual
/-- `visitNode(node)` (part_001 lines 92-121): dispatch on the node kind,
then recurse into every child via `forEachChild` unconditionally. -/
def visitNode (o : AstOptions) (st : List Str) : Ast → List Str
  | .stringLit t => handleText st t
  | .noSubTemplate t => handleText st t
  | .templateExpr h spans =>
    let st := if containsChinese h then addValidSegments st h else st
    visitChildren o (handleTemplateLiterals st spans) spans
  | .templateSpan e _ => visitNode o st e
  | .jsxText t => if o.extractFromJSX && containsChinese t then addValidSegments st t else st
  | .jsxAttribute _ init => visitChildren o st init
  | .ident _ => st
  | .propAccess obj _ => visitNode o st obj
  | .call callee args =>
    visitChildren o (visitNode o (handleCallExpression o st callee) callee) args
  | .exprStmt e => visitNode o st e
  | .enumDecl members => visitChildren o (handleEnumDeclaration o st members) members
  | .enumMember nm init => visitChildren o (visitNode o st nm) init
  | .propAssign k v => visitNode o (visitNode o st k) v
  | .objectLit props => visitChildren o st props
  | .program stmts => visitChildren o st stmts
  | .otherNode children => visitChildren o st children

/-- `ts.forEachChild(node, child => this.visitNode(child))`. -/
def visitChildren (o : AstOptions) (st : List Str) : Asts → List Str
  | .nil => st
  | .cons hd tl => visitChildren o (visitNode o st hd) tl
end

set_option linter.unusedVariables false in
/-- `ASTChineseExtractor.extractFromFile` (part_001 lines 39-67): the
per-instance accumulator `this.chineseTexts` is cleared before the visit,
so the returned array never depends on the state left by earlier files. -/
def astExtractFromFile (o : AstOptions) (chineseTexts : List Str) (sourceFile : Ast) :
    List Str :=
  let cleared : List Str := []
  visitNode o cleared sourceFile

/-! ## Tree-Based Extractor, ts-morph variant
(`extractChineseFromFile`, part_001 lines 605-708, with
`isStringLiteralAsKey` lines 509-542 and `isInConsoleStatement`
lines 549-598). -/

/-- Whether one node of the ancestor walk certifies a console statement:
a call expression whose callee is a property access with object text
`console` and a method matched by `/^(log|warn|error|info|debug|trace)$/`,
or an expression statement directly wrapping such a call. -/
def tsNodeIsConsole : Ast → Bool
  | .call (.propAccess (.ident objName) propName) _ =>
    jsTrim objName = "console".data &&
      ["log", "warn", "error", "info", "debug", "trace"].any (fun m => propName = m.data)
  | .exprStmt (.call (.propAccess (.ident objName) propName) _) =>
    jsTrim objName = "console".data &&
      ["log", "warn", "error", "info", "debug", "trace"].any (fun m => propName = m.data)
  | _ => false

/-- `isInConsoleStatement(node)`: inspect the node and at most two
ancestors (`maxDepth = 3`). -/
def isInConsoleStatement (node : Ast) (ancestors : List Ast) : Bool :=
  ((node :: ancestors).take 3).any tsNodeIsConsole

/-- The per-node callback of `sourceFile.forEachDescendant`: skipped
entirely inside a console statement; a string literal in the name slot of a
`PropertyAssignment` or `EnumMember` (`isStringLiteralAsKey`) is skipped;
otherwise string literals, template heads and span literals, plain template
literals, trimmed JSX text, and string-literal JSX attribute initializers
are pushed raw when `isValidChineseText` accepts them.  Every other node
kind falls through with no push. -/
def tsHandleNode (ancestors : List Ast) (isKeySlot : Bool) (acc : List Str) (n : Ast) :
    List Str :=
  if isInConsoleStatement n ancestors then acc
  else
    match n with
    | .stringLit t =>
      if isKeySlot then acc
      else if isValidChineseText t then acc ++ [t] else acc
    | .templateExpr h spans =>
      let acc := if isValidChineseText h then acc ++ [h] else acc
      let rec spanLits (acc : List Str) : Asts → List Str
        | .nil => acc
        | .cons (.templateSpan _ lit) tl =>
          spanLits (if isValidChineseText lit then acc ++ [lit] else acc) tl
        | .cons _ tl => spanLits acc tl
      spanLits acc spans
    | .noSubTemplate t => if isValidChineseText t then acc ++ [t] else acc
    | .jsxText t => if isValidChineseText (jsTrim t) then acc ++ [jsTrim t] else acc
    | .jsxAttribute _ (.cons (.stringLit t) .nil) =>
      if isValidChineseText t then acc ++ [t] else acc
    | _ => acc

mutual
/-- Visit a node of the ts-morph traversal: run the callback, then descend
into the children in document order, extending the ancestor chain and
marking the name slots of property assignments and enum members. -/
def tsVisitNode (ancestors : List Ast) (isKeySlot : Bool) (acc : List Str) :
    Ast → List Str
  | n@(.stringLit _) => tsHandleNode ancestors isKeySlot acc n
  | n@(.noSubTemplate _) => tsHandleNode ancestors isKeySlot acc n
  | n@(.jsxText _) => tsHandleNode ancestors isKeySlot acc n
  | n@(.ident _) => tsHandleNode ancestors isKeySlot acc n
  | n@(.templateExpr _ spans) =>
    tsVisitChildren (n :: ancestors) (tsHandleNode ancestors isKeySlot acc n) spans
  | n@(.templateSpan e _) =>
    tsVisitNode (n :: ancestors) false (tsHandleNode ancestors isKeySlot acc n) e
  | n@(.propAccess obj _) =>
    tsVisitNode (n :: ancestors) false (tsHandleNode ancestors isKeySlot acc n) obj
  | n@(.call callee args) =>
    tsVisitChildren (n :: ancestors)
      (tsVisitNode (n :: ancestors) false (tsHandleNode ancestors isKeySlot acc n) callee)
      args
  | n@(.exprStmt e) =>
    tsVisitNode (n :: ancestors) false (tsHandleNode ancestors isKeySlot acc n) e
  | n@(.enumDecl members) =>
    tsVisitChildren (n :: ancestors) (tsHandleNode ancestors isKeySlot acc n) members
  | n@(.enumMember nm init) =>
    tsVisitChildren (n :: ancestors)
      (tsVisitNode (n :: ancestors) true (tsHandleNode ancestors isKeySlot acc n) nm)
      init
  | n@(.propAssign k v) =>
    tsVisitNode (n :: ancestors) false
      (tsVisitNode (n :: ancestors) true (tsHandleNode ancestors isKeySlot acc n) k)
      v
  | n@(.objectLit props) =>
    tsVisitChildren (n :: ancestors) (tsHandleNode ancestors isKeySlot acc n) props
  | n@(.program stmts) =>
    tsVisitChildren (n :: ancestors) (tsHandleNode ancestors isKeySlot acc n) stmts
  | n@(.jsxAttribute _ init) =>
    tsVisitChildren (n :: ancestors) (tsHandleNode ancestors isKeySlot acc n) init
  | n@(.otherNode children) =>
    tsVisitChildren (n :: ancestors) (tsHandleNode ancestors isKeySlot acc n) children

/-- Visit a child list in order. -/
def tsVisitChildren (ancestors : List Ast) (acc : List Str) : Asts → List Str
  | .nil => acc
  | .cons hd tl => tsVisitChildren ancestors (tsVisitNode ancestors false acc hd) tl
end

/-- The ts-morph `extractChineseFromFile`: a fresh in-memory project and a
fresh local `chineseTexts` array per call; `forEachDescendant` visits every
descendant of the source file, which itself has no handler. -/
def tsExtractChineseFromFile (sourceFile : Ast) : List Str :=
  match sourceFile with
  | .program stmts => tsVisitChildren [.program stmts] [] stmts
  | other => tsVisitNode [] false [] other

/-! ## Concrete inputs used by the claim theorems -/

/-- The source tree of `console.log('这是调试信息')`. -/
def consoleLogSource : Ast :=
  .program (.cons (.exprStmt (.call
    (.propAccess (.ident "console".data) "log".data)
    (.cons (.stringLit "这是调试信息".data) .nil))) .nil)

/-- The source line `console.log('这是调试信息')`. -/
def consoleLogLineStr : Str :=
  "console.log(".data ++ [quoteChar] ++ "这是调试信息".data ++ [quoteChar] ++ ")".data

/-- The source tree of `enum Status { 待处理 = '任务已完成' }`. -/
def enumStatusSource : Ast :=
  .program (.cons (.enumDecl (.cons
    (.enumMember (.ident "待处理".data) (.cons (.stringLit "任务已完成".data) .nil))
    .nil)) .nil)

/-- The source tree of the object literal `({ '待处理': '任务已完成' })`,
whose property name slot holds a string literal. -/
def keyedObjectSource : Ast :=
  .program (.cons (.exprStmt (.objectLit (.cons
    (.propAssign (.stringLit "待处理".data) (.stringLit "任务已完成".data)) .nil))) .nil)

/-- The source tree of `({ ['待处理']: '任务已完成' })`: the property name
slot holds a `ComputedPropertyName` (an `otherNode`), so the string
literal's parent is the computed name, not the `PropertyAssignment`. -/
def computedKeySource : Ast :=
  .program (.cons (.exprStmt (.objectLit (.cons
    (.propAssign (.otherNode (.cons (.stringLit "待处理".data) .nil))
      (.stringLit "任务已完成".data)) .nil))) .nil)

/-- The template body `Hello 你好 ${a} world`. -/
def helloTemplateBody : Str :=
  "Hello 你好 ".data ++ ['$', lbraceChar] ++ "a".data ++ [rbraceChar] ++ " world".data

/-- The source line ``const t = `Hello 你好 ${a} world` ``. -/
def helloTemplateLine : Str :=
  "const t = ".data ++ [backtickChar] ++ helloTemplateBody ++ [backtickChar]

/-- The template body `A${ {}.y + '中文' }B`, whose interpolated expression
contains a closing brace before its quoted Chinese text. -/
def leakTemplateBody : Str :=
  "A".data ++ ['$', lbraceChar, ' ', lbraceChar, rbraceChar] ++ ".y + ".data ++
    [quoteChar] ++ "中文".data ++ [quoteChar] ++ " ".data ++ [rbraceChar] ++ "B".data

/-- The literal segment that the interpolation split produces from
`leakTemplateBody` after the early closing brace. -/
def leakSegment : Str :=
  ".y + ".data ++ [quoteChar] ++ "中文".data ++ [quoteChar] ++ " ".data ++
    [rbraceChar] ++ "B".data

/-- The specification's example template body `用户【${a}】已在分支【${b}】中存在`. -/
def specTemplateBody : Str :=
  "用户【".data ++ ['$', lbraceChar] ++ "a".data ++ [rbraceChar] ++ "】已在分支【".data ++
    ['$', lbraceChar] ++ "b".data ++ [rbraceChar] ++ "】中存在".data

/-- The ordinary (non-enum) assignment `const msg = '操作成功'`. -/
def constAssignSource : Str :=
  "const msg = ".data ++ [quoteChar] ++ "操作成功".data ++ [quoteChar]

/-! ## Helper lemmas -/

/-- Membership survives the `Set`-style deduplication. -/
lemma mem_dedupFirstGo (a : Str) :
    ∀ (l seen : List Str), a ∈ l → a ∈ seen ∨ a ∈ dedupFirstGo seen l := by
  intro l
  induction l with
  | nil => intro seen h; simp at h
  | cons t rest ih =>
    intro seen h
    rcases List.mem_cons.mp h with rfl | hmem
    · by_cases hc : seen.contains a
      · exact Or.inl (List.mem_of_elem_eq_true hc)
      · simp only [dedupFirstGo, hc, if_neg]
        exact Or.inr (List.mem_cons_self _ _)
    · by_cases hc : seen.contains t
      · simp only [dedupFirstGo, hc, if_pos]
        exact ih seen hmem
      · simp only [dedupFirstGo, hc, if_neg]
        rcases ih (t :: seen) hmem with hs | hg
        · rcases List.mem_cons.mp hs with rfl | hs
          · exact Or.inr (List.mem_cons_self _ _)
          · exact Or.inl hs
        · exact Or.inr (List.mem_cons_of_mem _ hg)

/-- Membership survives `[...new Set(texts)]`. -/
lemma mem_dedupFirst (a : Str) (l : List Str) (h : a ∈ l) : a ∈ dedupFirst l := by
  rcases mem_dedupFirstGo a l [] h with hs | hg
  · simp at hs
  · exact hg

/-- Filtering by a stronger predicate yields at most as many elements. -/
lemma filter_length_mono {α : Type} (p q : α → Bool) (h : ∀ s, p s = true → q s = true) :
    ∀ l : List α, (l.filter p).length ≤ (l.filter q).length := by
  intro l
  induction l with
  | nil => simp
  | cons a t ih =>
    by_cases hp : p a = true
    · simp only [List.filter_cons, hp, h a hp, List.length_cons]
      exact Nat.succ_le_succ ih
    · simp only [List.filter_cons, Bool.not_eq_true] at hp ⊢
      rw [hp]
      by_cases hq : q a = true
      · simp only [hq, List.length_cons]
        exact Nat.le_succ_of_le ih
      · simp only [Bool.not_eq_true] at hq
        rw [hq]
        exact ih

/-! ## Claim theorems -/

/-- Claim C1 (code bug).  With the default options
(`extractFromConsole = false`), the `ASTChineseExtractor` class still
extracts `这是调试信息` from `console.log('这是调试信息')`: the early
`return` in `handleCallExpression` cannot stop `visitNode` from recursing
into the call's children, contradicting the option's own documentation and
the specification.  The pattern-based extractor (and the ts-morph
extractor) correctly exclude the phrase. -/
theorem consoleExclusionDiverges :
    astExtractFromFile defaultAstOptions [] consoleLogSource = ["这是调试信息".data] ∧
    extractChineseFromLine consoleLogLineStr = [] ∧
    tsExtractChineseFromFile consoleLogSource = [] := by
  refine ⟨by decide, by decide, by decide⟩

/-- Claim C3 (counterexample).  The claim states the classifier rejects
every string whose Chinese-character count does not exceed its Latin-letter
count.  The class classifier accepts `a的` (counts are equal), and the
pattern/ts-morph classifier variant has no Latin-majority filter at all, so
it even accepts `the 的`. -/
theorem latinMajorityCounterexample :
    "a的".data.countP (fun c => isChineseChar c) = 1 ∧
    "a的".data.countP (fun c => isLatinLetter c) = 1 ∧
    astIsValidChineseText "a的".data = true ∧
    isValidChineseText "the 的".data = true := by
  refine ⟨by decide, by decide, by decide, by decide⟩

/-- Claim C3 (amended).  The `ASTChineseExtractor` classifier rejects every
string with strictly more Latin letters than Chinese characters. -/
theorem astClassifierRejectsLatinMajority (t : Str)
    (h : t.countP (fun c => isChineseChar c) < t.countP (fun c => isLatinLetter c)) :
    astIsValidChineseText t = false := by
  unfold astIsValidChineseText
  repeat' split
  all_goals simp_all

/-- Witness for `astClassifierRejectsLatinMajority` at `the 的`. -/
theorem astClassifierRejectsLatinMajority_witness :
    "the 的".data.countP (fun c => isChineseChar c) <
      "the 的".data.countP (fun c => isLatinLetter c) ∧
    astIsValidChineseText "the 的".data = false :=
  ⟨by decide, astClassifierRejectsLatinMajority "the 的".data (by decide)⟩

/-- Claim C4 (counterexample).  The claim states that string literals in
key positions are never extracted by the tree-based extractor regardless of
options; but the `ASTChineseExtractor` class has no key check, and its
child recursion extracts the property-name literal `待处理` from
`({ '待处理': '任务已完成' })` under the default options. -/
theorem keyPositionCounterexample :
    "待处理".data ∈ astExtractFromFile defaultAstOptions [] keyedObjectSource := by
  decide

/-- The callback never pushes at a `PropertyAssignment` node itself. -/
lemma tsHandleNode_propAssign (ancestors : List Ast) (isKey : Bool) (acc : List Str)
    (k v : Ast) : tsHandleNode ancestors isKey acc (.propAssign k v) = acc := by
  unfold tsHandleNode
  split <;> rfl

/-- The callback never pushes at an `EnumMember` node itself. -/
lemma tsHandleNode_enumMember (ancestors : List Ast) (isKey : Bool) (acc : List Str)
    (nm : Ast) (init : Asts) :
    tsHandleNode ancestors isKey acc (.enumMember nm init) = acc := by
  unfold tsHandleNode
  split <;> rfl

/-- A string literal visited in a name slot (`isStringLiteralAsKey` true)
contributes nothing, whatever its text, ancestors, or accumulator. -/
lemma tsHandleNode_keySlotLiteral (ancestors : List Ast) (acc : List Str) (k : Str) :
    tsHandleNode ancestors true acc (.stringLit k) = acc := by
  unfold tsHandleNode
  split <;> rfl

/-- Claim C4 (amended).  With default options the tree extractors pull
`任务已完成` and not `待处理` from `enum Status { 待处理 = '任务已完成' }`.
In the ts-morph extractor, a string literal standing as the direct name
node of a `PropertyAssignment` or an `EnumMember` — exactly the two parent
kinds `isStringLiteralAsKey` recognizes — is never extracted: for every key
text, value subtree, ancestor chain, prior state, and incoming key flag,
visiting such a node yields precisely what its value position contributes.
The exclusion stops there: a key literal whose direct parent is some other
node — here a `ComputedPropertyName` in `({ ['待处理']: '任务已完成' })` —
is extracted even by the ts-morph extractor, and the `ASTChineseExtractor`
class, which has no key check at all, extracts plain key literals too. -/
theorem keyPositionExclusionAmended :
    (∀ (ancestors : List Ast) (isKey : Bool) (acc : List Str) (k : Str) (v : Ast),
      tsVisitNode ancestors isKey acc (.propAssign (.stringLit k) v) =
        tsVisitNode (.propAssign (.stringLit k) v :: ancestors) false acc v) ∧
    (∀ (ancestors : List Ast) (isKey : Bool) (acc : List Str) (k : Str) (init : Asts),
      tsVisitNode ancestors isKey acc (.enumMember (.stringLit k) init) =
        tsVisitChildren (.enumMember (.stringLit k) init :: ancestors) acc init) ∧
    astExtractFromFile defaultAstOptions [] enumStatusSource = ["任务已完成".data] ∧
    tsExtractChineseFromFile enumStatusSource = ["任务已完成".data] ∧
    tsExtractChineseFromFile keyedObjectSource = ["任务已完成".data] ∧
    tsExtractChineseFromFile computedKeySource = ["待处理".data, "任务已完成".data] ∧
    astExtractFromFile defaultAstOptions [] keyedObjectSource =
      ["待处理".data, "任务已完成".data] := by
  refine ⟨?_, ?_, by decide, by decide, by decide, by decide, by decide⟩
  · intro ancestors isKey acc k v
    simp only [tsVisitNode, tsHandleNode_propAssign, tsHandleNode_keySlotLiteral]
  · intro ancestors isKey acc k init
    simp only [tsVisitNode, tsHandleNode_enumMember, tsHandleNode_keySlotLiteral]

/-- Claim C5 (counterexample).  For ``const t = `Hello 你好 ${a} world` ``
the pattern extractor yields one phrase group although the template has two
non-empty literal spans; and for `A${ {}.y + '中文' }B` the split
`/\$\{[^}]*\}/` ends the separator at the first closing brace, so `中文`
from inside the interpolated expression leaks into a literal segment and is
extracted. -/
theorem interpolationSegmentationCounterexample :
    extractChineseFromLine helloTemplateLine = ["你好".data] ∧
    ((interpSpans helloTemplateBody).filter
      (fun s => !(segmentPhrases s).isEmpty)).length = 1 ∧
    ((interpSpans helloTemplateBody).filter (fun s => !s.isEmpty)).length = 2 ∧
    leakSegment ∈ interpSpans leakTemplateBody ∧
    "中文".data ∈ segmentPhrases leakSegment := by
  refine ⟨by decide, by decide, by decide, by decide, by decide⟩

set_option linter.unusedVariables false in
/-- Claim C5 (amended).  For every template body with an interpolation
marker, the literal text is split on `/\$\{[^}]*\}/` and each segment is
cleaned and classified independently; the number of segment groups that
produce phrases is at most — not exactly — the number of non-empty
literal-text spans. -/
theorem interpolationSegmentationAmended (content : Str)
    (h : hasInterp content = true) :
    ((interpSpans content).filter (fun s => !(segmentPhrases s).isEmpty)).length ≤
      ((interpSpans content).filter (fun s => !s.isEmpty)).length := by
  refine filter_length_mono _ _ (fun s hs => ?_) (interpSpans content)
  by_cases hempty : s = []
  · subst hempty
    simp [segmentPhrases, validSegments, jsTrim, cleanChineseText] at hs
  · simp [List.isEmpty_iff, hempty]

/-- Witness for `interpolationSegmentationAmended` at the specification's
own template example. -/
theorem interpolationSegmentationAmended_witness :
    hasInterp specTemplateBody = true ∧
    ((interpSpans specTemplateBody).filter
      (fun s => !(segmentPhrases s).isEmpty)).length ≤
      ((interpSpans specTemplateBody).filter (fun s => !s.isEmpty)).length :=
  ⟨by decide, interpolationSegmentationAmended specTemplateBody (by decide)⟩

/-- Claim C7 (confirmed).  For every duplicate-free phrase list and every
outcome of the external batch-translation call — including a thrown batch
(`Except.error`) and per-phrase failures — `generateMapping` returns
exactly the input phrases as keys, in order, each exactly once; every
failure path degrades to the dictionary and then the placeholder instead of
propagating. -/
theorem generateMappingKeys (chineseTexts : List Str) (batch : BatchResult)
    (shouldTranslate : Bool) (h : chineseTexts.Nodup) :
    (generateMapping chineseTexts batch shouldTranslate).map Prod.fst = chineseTexts ∧
    ((generateMapping chineseTexts batch shouldTranslate).map Prod.fst).Nodup := by
  have hk : (generateMapping chineseTexts batch shouldTranslate).map Prod.fst =
      chineseTexts := by
    unfold generateMapping
    split
    · simp [Function.comp_def]
    · split <;> simp [Function.comp_def, apply_ite]
  exact ⟨hk, by rw [hk]; exact h⟩

/-- Witness for `generateMappingKeys` with a failing batch call. -/
theorem generateMappingKeys_witness :
    (["总次数".data, "你好".data] : List Str).Nodup ∧
    (generateMapping ["总次数".data, "你好".data] (.error ()) true).map Prod.fst =
      ["总次数".data, "你好".data] :=
  ⟨by decide, (generateMappingKeys _ (.error ()) true (by decide)).1⟩

/-- Claim C8 (confirmed).  `cleanChineseText` is a total function, and it
returns the empty list whenever no CJK character remains after symbol
stripping and boundary-punctuation trimming — in particular for the empty
string. -/
theorem cleanReturnsEmptyWithoutChinese (t : Str)
    (h : containsChinese (stripEdgeChinesePunct (t.map replaceSymbolChar)) = false) :
    cleanChineseText t = [] := by
  unfold cleanChineseText
  split
  · rfl
  · simp [h]

/-- Witness for `cleanReturnsEmptyWithoutChinese` on a Chinese-free line. -/
theorem cleanReturnsEmptyWithoutChinese_witness :
    containsChinese (stripEdgeChinesePunct ("const x = 42;".data.map replaceSymbolChar)) =
      false ∧
    cleanChineseText "const x = 42;".data = [] :=
  ⟨by decide, cleanReturnsEmptyWithoutChinese "const x = 42;".data (by decide)⟩

/-- Claim C9 (confirmed).  `extractFromFile` clears the per-instance
accumulator before visiting, so extracting file B after file A returns
exactly what a fresh extraction of B returns, for any prior state: no
accumulator state leaks across files (the ts-morph extractor is stateless
by construction). -/
theorem extractionStateIsReset (o : AstOptions) (s : List Str) (fileA fileB : Ast) :
    astExtractFromFile o (astExtractFromFile o s fileA) fileB =
      astExtractFromFile o [] fileB := rfl

/-- Claim C10 (confirmed).  Every capture of the enum-value regex anywhere
in the file text — enum member or not — has its cleaned, classified
segments included in the pattern extractor's output. -/
theorem enumRegexOverCapture (content raw seg : Str)
    (h1 : raw ∈ enumValueMatches content) (h2 : seg ∈ validSegments raw) :
    seg ∈ regexExtractChineseFromFile content := by
  have hmem : seg ∈ (enumValueMatches content).flatMap validSegments :=
    List.mem_flatMap.mpr ⟨raw, h1, h2⟩
  unfold regexExtractChineseFromFile
  exact mem_dedupFirst _ _ (List.mem_append_left _ hmem)

/-- Witness for `enumRegexOverCapture`: the ordinary variable assignment
`const msg = '操作成功'` is captured by the enum-value regex and its phrase
reaches the extractor output. -/
theorem enumRegexOverCapture_witness :
    "操作成功".data ∈ enumValueMatches constAssignSource ∧
    "操作成功".data ∈ validSegments "操作成功".data ∧
    "操作成功".data ∈ regexExtractChineseFromFile constAssignSource :=
  ⟨by decide, by decide,
    enumRegexOverCapture constAssignSource "操作成功".data "操作成功".data
      (by decide) (by decide)⟩

/-! ## Claim C2: the deduplicator implements the scored first-seen policy

The implementation threads a `seen` map next to the `result` array; the
policy of the claim speaks only about the output sequence.  The bridge is
the invariant that `seen` is exactly the key-indexed image of `result` and
that the stored keys are pairwise distinct. -/

/-- The `seen` map corresponding to a result array. -/
def seenOf (result : List Str) : List (Str × Str) :=
  result.map (fun r => (normalizeForDedup r, r))

lemma seenOf_cons (r : Str) (rs : List Str) :
    seenOf (r :: rs) = (normalizeForDedup r, r) :: seenOf rs := rfl

lemma mapGet_cons_pos {k₁ k : Str} (v : Str) (m : List (Str × Str)) (h : k₁ = k) :
    mapGet ((k₁, v) :: m) k = some v := by
  simp [mapGet, List.find?, h]

lemma mapGet_cons_neg {k₁ k : Str} (v : Str) (m : List (Str × Str)) (h : ¬k₁ = k) :
    mapGet ((k₁, v) :: m) k = mapGet m k := by
  simp [mapGet, List.find?, h]

lemma mapSet_cons_pos {k₁ k : Str} (v w : Str) (m : List (Str × Str)) (h : k₁ = k) :
    mapSet ((k₁, v) :: m) k w = (k, w) :: m := by
  simp [mapSet, h]

lemma mapSet_cons_neg {k₁ k : Str} (v w : Str) (m : List (Str × Str)) (h : ¬k₁ = k) :
    mapSet ((k₁, v) :: m) k w = (k₁, v) :: mapSet m k w := by
  simp [mapSet, h]

lemma specInsert_cons_rep {r t : Str} (rs : List Str)
    (h : normalizeForDedup r = normalizeForDedup t) (hr : dedupReplaces t r = true) :
    specInsert (r :: rs) t = t :: rs := by
  simp [specInsert, h, hr]

lemma specInsert_cons_norep {r t : Str} (rs : List Str)
    (h : normalizeForDedup r = normalizeForDedup t) (hr : dedupReplaces t r = false) :
    specInsert (r :: rs) t = r :: rs := by
  simp [specInsert, h, hr]

lemma specInsert_cons_neg {r t : Str} (rs : List Str)
    (h : ¬normalizeForDedup r = normalizeForDedup t) :
    specInsert (r :: rs) t = r :: specInsert rs t := by
  simp [specInsert, h]

/-- Looking a key up in the image map finds an entry of the array with that
key. -/
lemma mapGet_seenOf_some {rs : List Str} {n ex : Str}
    (h : mapGet (seenOf rs) n = some ex) : ex ∈ rs ∧ normalizeForDedup ex = n := by
  induction rs with
  | nil => simp [seenOf, mapGet] at h
  | cons r rest ih =>
    by_cases hk : normalizeForDedup r = n
    · rw [seenOf_cons, mapGet_cons_pos _ _ hk] at h
      cases h
      exact ⟨List.mem_cons_self _ _, hk⟩
    · rw [seenOf_cons, mapGet_cons_neg _ _ hk] at h
      rcases ih h with ⟨hmem, hkey⟩
      exact ⟨List.mem_cons_of_mem _ hmem, hkey⟩

/-- Every key of `specInsert result t` is a key of `result` or the key of
`t`. -/
lemma specInsert_keys_subset (t : Str) :
    ∀ (result : List Str) (x : Str), x ∈ (specInsert result t).map normalizeForDedup →
      x ∈ result.map normalizeForDedup ∨ x = normalizeForDedup t := by
  intro result
  induction result with
  | nil =>
    intro x hx
    simp only [specInsert, List.map_cons, List.map_nil, List.mem_cons,
      List.not_mem_nil, or_false] at hx
    exact Or.inr hx
  | cons r rs ih =>
    intro x hx
    by_cases hkey : normalizeForDedup r = normalizeForDedup t
    · rcases hrb : dedupReplaces t r with _ | _
      · rw [specInsert_cons_norep rs hkey hrb] at hx
        exact Or.inl hx
      · rw [specInsert_cons_rep rs hkey hrb, List.map_cons, List.mem_cons] at hx
        rcases hx with hx | hx
        · exact Or.inr hx
        · exact Or.inl (by rw [List.map_cons, List.mem_cons]; exact Or.inr hx)
    · rw [specInsert_cons_neg rs hkey, List.map_cons, List.mem_cons] at hx
      rcases hx with hx | hx
      · exact Or.inl (by rw [List.map_cons, List.mem_cons]; exact Or.inl hx)
      · rcases ih x hx with h | h
        · exact Or.inl (by rw [List.map_cons, List.mem_cons]; exact Or.inr h)
        · exact Or.inr h

/-- `specInsert` preserves distinctness of the normalization keys. -/
lemma specInsert_nodup (t : Str) :
    ∀ result : List Str, (result.map normalizeForDedup).Nodup →
      ((specInsert result t).map normalizeForDedup).Nodup := by
  intro result
  induction result with
  | nil => intro _; simp [specInsert]
  | cons r rs ih =>
    intro hnd
    rw [List.map_cons, List.nodup_cons] at hnd
    obtain ⟨hnotin, hnd2⟩ := hnd
    by_cases hkey : normalizeForDedup r = normalizeForDedup t
    · rcases hrb : dedupReplaces t r with _ | _
      · rw [specInsert_cons_norep rs hkey hrb, List.map_cons, List.nodup_cons]
        exact ⟨hnotin, hnd2⟩
      · rw [specInsert_cons_rep rs hkey hrb, List.map_cons, List.nodup_cons]
        exact ⟨hkey ▸ hnotin, hnd2⟩
    · rw [specInsert_cons_neg rs hkey, List.map_cons, List.nodup_cons]
      refine ⟨fun hmem => ?_, ih hnd2⟩
      rcases specInsert_keys_subset t rs _ hmem with h | h
      · exact hnotin h
      · exact hkey h

/-- One loop iteration of `deduplicateTexts` agrees with one step of the
specified policy, carrying the `seen`-map invariant. -/
lemma dedupStep_eq (t : Str) :
    ∀ result : List Str, (result.map normalizeForDedup).Nodup →
      dedupStep ⟨seenOf result, result⟩ t =
        ⟨seenOf (specInsert result t), specInsert result t⟩ := by
  intro result
  induction result with
  | nil =>
    intro _
    simp [dedupStep, seenOf, mapGet, mapSet, specInsert]
  | cons r rs ih =>
    intro hnd
    rw [List.map_cons, List.nodup_cons] at hnd
    obtain ⟨hnotin, hnd2⟩ := hnd
    by_cases hkey : normalizeForDedup r = normalizeForDedup t
    · -- the head already stores this key
      rcases hrb : dedupReplaces t r with _ | _
      · rw [specInsert_cons_norep rs hkey hrb]
        simp [dedupStep, seenOf_cons, mapGet_cons_pos _ _ hkey, hrb]
      · rw [specInsert_cons_rep rs hkey hrb]
        simp only [dedupStep, seenOf_cons, mapGet_cons_pos _ _ hkey, hrb]
        have hidx : ((r :: rs).findIdx? fun x => x = r) = some 0 := by
          simp [List.findIdx?_cons]
        simp [hidx, List.set_cons_zero, mapSet, seenOf_cons, hkey]
    · -- the head key differs; defer to the tail
      have hstep := ih hnd2
      rw [specInsert_cons_neg rs hkey]
      rcases hg : mapGet (seenOf rs) (normalizeForDedup t) with _ | ex
      · -- fresh key: both sides append
        have hLHS : dedupStep ⟨seenOf (r :: rs), r :: rs⟩ t =
            ⟨(normalizeForDedup r, r) :: mapSet (seenOf rs) (normalizeForDedup t) t,
              (r :: rs) ++ [t]⟩ := by
          simp [dedupStep, seenOf_cons, mapGet_cons_neg _ _ hkey, hg,
            mapSet_cons_neg _ _ _ hkey]
        have hRHS : dedupStep ⟨seenOf rs, rs⟩ t =
            ⟨mapSet (seenOf rs) (normalizeForDedup t) t, rs ++ [t]⟩ := by
          simp [dedupStep, hg]
        rw [hRHS] at hstep
        have h1 : mapSet (seenOf rs) (normalizeForDedup t) t = seenOf (specInsert rs t) :=
          congrArg DedupState.seen hstep
        have h2 : rs ++ [t] = specInsert rs t := congrArg DedupState.result hstep
        rw [hLHS, ← h2]
        rw [← h2] at h1
        rw [h1]
        rfl
      · -- the key is stored deeper in the list
        have hex := mapGet_seenOf_some hg
        have hner : ¬r = ex := fun hre => hkey (hre ▸ hex.2)
        have hhead : ((r :: rs).findIdx? fun x => x = ex) =
            (rs.findIdx? fun x => x = ex).map (· + 1) := by
          simp [List.findIdx?_cons, hner]
        rcases hrb : dedupReplaces t ex with _ | _
        · have hLHS : dedupStep ⟨seenOf (r :: rs), r :: rs⟩ t = ⟨seenOf (r :: rs), r :: rs⟩ := by
            simp [dedupStep, seenOf_cons, mapGet_cons_neg _ _ hkey, hg, hrb]
          have hRHS : dedupStep ⟨seenOf rs, rs⟩ t = ⟨seenOf rs, rs⟩ := by
            simp [dedupStep, hg, hrb]
          rw [hRHS] at hstep
          have h2 : rs = specInsert rs t := congrArg DedupState.result hstep
          rw [hLHS, DedupState.mk.injEq, ← h2]
          exact ⟨rfl, rfl⟩
        · rcases hidx : rs.findIdx? (fun x => x = ex) with _ | i
          · have hLHS : dedupStep ⟨seenOf (r :: rs), r :: rs⟩ t =
                ⟨seenOf (r :: rs), r :: rs⟩ := by
              simp [dedupStep, seenOf_cons, mapGet_cons_neg _ _ hkey, hg, hrb, hhead, hidx]
            have hRHS : dedupStep ⟨seenOf rs, rs⟩ t = ⟨seenOf rs, rs⟩ := by
              simp [dedupStep, hg, hrb, hidx]
            rw [hRHS] at hstep
            have h2 : rs = specInsert rs t := congrArg DedupState.result hstep
            rw [hLHS, DedupState.mk.injEq, ← h2]
            exact ⟨rfl, rfl⟩
          · have hLHS : dedupStep ⟨seenOf (r :: rs), r :: rs⟩ t =
                ⟨(normalizeForDedup r, r) :: mapSet (seenOf rs) (normalizeForDedup t) t,
                  r :: rs.set i t⟩ := by
              simp [dedupStep, seenOf_cons, mapGet_cons_neg _ _ hkey, hg, hrb, hhead,
                hidx, mapSet_cons_neg _ _ _ hkey, List.set_cons_succ]
            have hRHS : dedupStep ⟨seenOf rs, rs⟩ t =
                ⟨mapSet (seenOf rs) (normalizeForDedup t) t, rs.set i t⟩ := by
              simp [dedupStep, hg, hrb, hidx]
            rw [hRHS] at hstep
            have h1 : mapSet (seenOf rs) (normalizeForDedup t) t =
                seenOf (specInsert rs t) := congrArg DedupState.seen hstep
            have h2 : rs.set i t = specInsert rs t := congrArg DedupState.result hstep
            rw [hLHS, ← h2]
            rw [← h2] at h1
            rw [h1]
            rfl

/-- Claim C2 (confirmed).  `deduplicateTexts` computes exactly the policy
the specification states: phrases are kept in first-seen order under the
normalization key (trim, collapse whitespace runs, strip the fixed Chinese
punctuation, lower-case), and a repeated key replaces the stored phrase in
place, at the same output position, when and only when the new phrase is
longer or its quality score — `min(length, 20)`, +5 for a sentence-terminal
ending, +2 for a contained comma-class mark, −3 for a comma-class start,
−1 for a comma-class end — is strictly higher. -/
theorem deduplicateTexts_eq_spec (texts : List Str) :
    deduplicateTexts texts = dedupSpec texts := by
  suffices h : ∀ result : List Str, (result.map normalizeForDedup).Nodup →
      (texts.foldl dedupStep ⟨seenOf result, result⟩).result =
        texts.foldl specInsert result by
    have h0 := h [] (by simp)
    simpa [deduplicateTexts, dedupSpec, seenOf] using h0
  induction texts with
  | nil => intro result _; rfl
  | cons a rest ih =>
    intro result hnd
    simp only [List.foldl_cons]
    rw [dedupStep_eq a result hnd]
    exact ih (specInsert result a) (specInsert_nodup a result hnd)


/-! ## Claim C6: cleaning as a fixed point

Classification alone does not make a phrase a fixed point of
`cleanChineseText` (a classified phrase may still contain whitespace that
cleaning removes); the phrases cleaning itself outputs are.  The bridge is
a character-level invariant of every output phrase. -/

/-- Characters that can appear in a phrase produced by `cleanChineseText`:
nothing ASCII, no whitespace, no Chinese punctuation, and none of the
stripped symbol classes. -/
def cleanOutputChar (c : Char) : Bool :=
  !isAsciiChar c && !isJsWhitespace c && !isChinesePunct c && !isStrippedSymbol c

lemma splitRunsGo_chars {p : Char → Bool} :
    ∀ (l cur : Str) (b : Bool) (s : Str), s ∈ splitRunsGo p l cur b →
      ∀ c ∈ s, c ∈ cur ∨ (c ∈ l ∧ p c = false) := by
  intro l
  induction l with
  | nil =>
    intro cur b s hs c hc
    simp only [splitRunsGo, List.mem_singleton] at hs
    subst hs
    exact Or.inl (List.mem_reverse.mp hc)
  | cons a rest ih =>
    intro cur b s hs c hc
    simp only [splitRunsGo] at hs
    by_cases hp : p a = true
    · rw [if_pos hp] at hs
      cases b with
      | true =>
        rw [if_pos rfl] at hs
        rcases ih cur true s hs c hc with h | ⟨hm, hf⟩
        · exact Or.inl h
        · exact Or.inr ⟨List.mem_cons_of_mem _ hm, hf⟩
      | false =>
        rw [if_neg (by simp)] at hs
        rcases List.mem_cons.mp hs with rfl | hs
        · exact Or.inl (List.mem_reverse.mp hc)
        · rcases ih [] true s hs c hc with h | ⟨hm, hf⟩
          · simp at h
          · exact Or.inr ⟨List.mem_cons_of_mem _ hm, hf⟩
    · rw [if_neg hp] at hs
      rcases ih (a :: cur) false s hs c hc with h | ⟨hm, hf⟩
      · rcases List.mem_cons.mp h with rfl | h
        · exact Or.inr ⟨List.mem_cons_self _ _, Bool.not_eq_true _ ▸ hp⟩
        · exact Or.inl h
      · exact Or.inr ⟨List.mem_cons_of_mem _ hm, hf⟩

/-- Characters of a piece of `splitRuns` come from the input and never
satisfy the separator predicate. -/
lemma splitRuns_chars {p : Char → Bool} {l s : Str} (hs : s ∈ splitRuns p l) :
    ∀ c ∈ s, c ∈ l ∧ p c = false := by
  intro c hc
  rcases splitRunsGo_chars l [] false s hs c hc with h | h
  · simp at h
  · exact h

lemma jsTrim_mem {c : Char} {t : Str} (h : c ∈ jsTrim t) : c ∈ t := by
  unfold jsTrim at h
  have h1 := List.mem_reverse.mp h
  have h2 := (List.dropWhile_sublist _).subset h1
  have h3 := List.mem_reverse.mp h2
  exact (List.dropWhile_sublist _).subset h3

lemma stripEdge_mem {c : Char} {t : Str} (h : c ∈ stripEdgeChinesePunct t) : c ∈ t := by
  unfold stripEdgeChinesePunct dropTrailingSuch dropLeadingSuch at h
  have h1 := List.mem_reverse.mp h
  have h2 := (List.dropWhile_sublist _).subset h1
  have h3 := List.mem_reverse.mp h2
  exact (List.dropWhile_sublist _).subset h3

/-- Characters of a cleaned segment come from the segment and are neither
ASCII nor whitespace. -/
lemma cleanSegment_chars {c : Char} {s : Str} (h : c ∈ cleanSegment s) :
    c ∈ s ∧ isAsciiChar c = false ∧ isJsWhitespace c = false := by
  unfold cleanSegment at h
  have h1 := stripEdge_mem (jsTrim_mem h)
  rw [List.mem_filter] at h1
  obtain ⟨h2, hascii⟩ := h1
  rw [List.mem_filter] at h2
  obtain ⟨h3, hother⟩ := h2
  refine ⟨h3, by simpa using hascii, ?_⟩
  simp only [Bool.not_eq_true', Bool.or_eq_false_iff] at hother
  exact hother.2

/-- Every phrase produced by `cleanChineseText` passes the final filter and
consists only of clean characters. -/
lemma cleanChineseText_chars {t p : Str} (hp : p ∈ cleanChineseText t) :
    segmentKeep p = true ∧ ∀ c ∈ p, cleanOutputChar c = true := by
  simp only [cleanChineseText] at hp
  split at hp
  · simp at hp
  · split at hp
    · simp at hp
    · rw [List.mem_filter] at hp
      obtain ⟨hp1, hkeep⟩ := hp
      refine ⟨hkeep, fun c hc => ?_⟩
      rw [List.mem_map] at hp1
      obtain ⟨s₁, hs₁, rfl⟩ := hp1
      rw [List.mem_filter] at hs₁
      obtain ⟨hs₂, _⟩ := hs₁
      rw [List.mem_map] at hs₂
      obtain ⟨s₀, hs₀, rfl⟩ := hs₂
      obtain ⟨hc₁, hascii, hws⟩ := cleanSegment_chars hc
      have hc₀ := jsTrim_mem hc₁
      obtain ⟨hcl, hpunct⟩ := splitRuns_chars hs₀ c hc₀
      have hmap := stripEdge_mem hcl
      rw [List.mem_map] at hmap
      obtain ⟨x, _, hx⟩ := hmap
      have hsym : isStrippedSymbol c = false := by
        by_cases hxs : isStrippedSymbol x = true
        · exfalso
          rw [replaceSymbolChar, if_pos hxs] at hx
          rw [← hx] at hascii
          simp [isAsciiChar] at hascii
        · rw [replaceSymbolChar, if_neg hxs] at hx
          rw [← hx]
          exact Bool.not_eq_true _ ▸ hxs
      simp [cleanOutputChar, hascii, hws, hpunct, hsym]

lemma dropWhile_of_none {p : Char → Bool} {l : Str} (h : ∀ c ∈ l, p c = false) :
    l.dropWhile p = l := by
  cases l with
  | nil => rfl
  | cons a rest =>
    rw [List.dropWhile_cons, if_neg]
    simp [h a (List.mem_cons_self _ _)]

lemma jsTrim_of_chars {p : Str} (h : ∀ c ∈ p, isJsWhitespace c = false) : jsTrim p = p := by
  unfold jsTrim
  rw [dropWhile_of_none h, dropWhile_of_none (fun c hc => h c (List.mem_reverse.mp hc)),
    List.reverse_reverse]

lemma stripEdge_of_chars {p : Str} (h : ∀ c ∈ p, isChinesePunct c = false) :
    stripEdgeChinesePunct p = p := by
  unfold stripEdgeChinesePunct dropTrailingSuch dropLeadingSuch
  rw [dropWhile_of_none h, dropWhile_of_none (fun c hc => h c (List.mem_reverse.mp hc)),
    List.reverse_reverse]

lemma splitRunsGo_of_none {p : Char → Bool} :
    ∀ (l cur : Str), (∀ c ∈ l, p c = false) → splitRunsGo p l cur false = [cur.reverse ++ l] := by
  intro l
  induction l with
  | nil => intro cur _; simp [splitRunsGo]
  | cons a rest ih =>
    intro cur h
    have ha := h a (List.mem_cons_self _ _)
    simp only [splitRunsGo, ha, Bool.false_eq_true, if_false]
    rw [ih (a :: cur) (fun c hc => h c (List.mem_cons_of_mem _ hc))]
    simp

/-- On a string with no separator characters, the split is trivial. -/
lemma splitRuns_of_none {p : Char → Bool} {l : Str} (h : ∀ c ∈ l, p c = false) :
    splitRuns p l = [l] := by
  unfold splitRuns
  rw [splitRunsGo_of_none l [] h]
  simp

/-- A phrase made of clean characters that passes the final filter is a
fixed point of `cleanChineseText`. -/
lemma cleanChineseText_fixed {p : Str} (hkeep : segmentKeep p = true)
    (hch : ∀ c ∈ p, cleanOutputChar c = true) : cleanChineseText p = [p] := by
  have hco : ∀ c ∈ p, isAsciiChar c = false ∧ isJsWhitespace c = false ∧
      isChinesePunct c = false ∧ isStrippedSymbol c = false := by
    intro c hc
    have := hch c hc
    simp only [cleanOutputChar, Bool.and_eq_true, Bool.not_eq_true'] at this
    exact ⟨this.1.1.1, this.1.1.2, this.1.2, this.2⟩
  have hparts := hkeep
  simp only [segmentKeep, Bool.and_eq_true] at hparts
  obtain ⟨⟨⟨⟨⟨he, _⟩, hcc⟩, _⟩, _⟩, _⟩ := hparts
  have hne : ¬p = [] := by
    intro hnil
    rw [hnil] at he
    simp at he
  have hmap : p.map replaceSymbolChar = p := by
    have : ∀ c ∈ p, replaceSymbolChar c = c := fun c hc => by
      rw [replaceSymbolChar, if_neg]
      simp [(hco c hc).2.2.2]
    calc p.map replaceSymbolChar = p.map id := List.map_congr_left this
    _ = p := List.map_id p
  have hstrip : stripEdgeChinesePunct p = p :=
    stripEdge_of_chars (fun c hc => (hco c hc).2.2.1)
  have htrim : jsTrim p = p := jsTrim_of_chars (fun c hc => (hco c hc).2.1)
  have hsplit : splitOnChinesePunct p = [p] :=
    splitRuns_of_none (fun c hc => (hco c hc).2.2.1)
  have hseg : cleanSegment p = p := by
    unfold cleanSegment
    have hf1 : p.filter (fun c => !(isLatinLetter c || isDigitChar c || isJsWhitespace c)) =
        p := by
      rw [List.filter_eq_self]
      intro c hc
      obtain ⟨ha, hw, _, _⟩ := hco c hc
      have hl : isLatinLetter c = false := by
        simp only [isLatinLetter, isAsciiChar, decide_eq_false_iff_not] at ha ⊢
        omega
      have hd : isDigitChar c = false := by
        simp only [isDigitChar, isAsciiChar, decide_eq_false_iff_not] at ha ⊢
        omega
      simp [hl, hd, hw]
    have hf2 : p.filter (fun c => !isAsciiChar c) = p := by
      rw [List.filter_eq_self]
      intro c hc
      simp [(hco c hc).1]
    rw [hf1, hf2, hstrip, htrim]
  simp only [cleanChineseText]
  rw [if_neg hne, hmap, hstrip]
  rw [if_neg (by simp [hcc, hne])]
  rw [hsplit]
  simp [htrim, hseg, hkeep, hcc, hne, List.isEmpty_iff]

/-- Claim C6 (counterexample).  `操作 成功` passes the class classifier,
yet cleaning removes its interior space: `clean` is not a fixed point on
all classified phrases. -/
theorem cleanFixedPointCounterexample :
    astIsValidChineseText "操作 成功".data = true ∧
    cleanChineseText "操作 成功".data = ["操作成功".data] := by
  refine ⟨by decide, by decide⟩

/-- Claim C6 (amended).  Cleaning is a fixed point on its own output
phrases: every phrase in `cleanChineseText t` is returned unchanged, as the
one-element list, when cleaned again. -/
theorem cleanFixedOnCleanOutputs (t p : Str) (hp : p ∈ cleanChineseText t) :
    cleanChineseText p = [p] := by
  obtain ⟨hkeep, hch⟩ := cleanChineseText_chars hp
  exact cleanChineseText_fixed hkeep hch

/-- Witness for `cleanFixedOnCleanOutputs` on the specification's emoji
example. -/
theorem cleanFixedOnCleanOutputs_witness :
    "操作成功".data ∈ cleanChineseText "✅ 操作成功！".data ∧
    cleanChineseText "操作成功".data = ["操作成功".data] :=
  ⟨by decide, cleanFixedOnCleanOutputs "✅ 操作成功！".data "操作成功".data (by decide)⟩

end ToChineseJson
